import Mathlib

/-!
Verification of the `big_complex` repository: an arbitrary-precision integer
engine (`src/big_int.rs`, a wrapper around an arbitrary-precision backend)
and a complex-number layer built on it (`src/big_complex.rs`).

The integer engine's values are modelled as `Int` (the wrapper adds no
representation of its own).  Operations whose algorithmic content lives in
`src/` (`sqrt`, `nth_root`, `from_polar`, `arg_quadrant`, `div_exact`,
complex `Div`, `Display`) are translated statement by statement.  Operations
that delegate to the external arbitrary-precision backend (division,
remainder, decimal parsing, byte-buffer import/export, decimal rendering)
are modelled from the spec, as marked on each definition.
-/

namespace BigNum

/-! Section: Integer engine: `src/big_int.rs` -/

/-- Modelled from the spec: `impl Div for BigInt` (big_int.rs:342) delegates
to the external backend, whose source is not part of this repository; per the
spec the quotient is the mathematical quotient truncated toward zero. -/
def intDiv (a b : Int) : Int := a.tdiv b

/-- Modelled from the spec: `impl Rem for BigInt` (big_int.rs:224) delegates
to the external backend; per the spec the remainder has the same sign as the
dividend (or is zero) and satisfies `a = b * (a / b) + (a % b)`. -/
def intRem (a b : Int) : Int := a.tmod b

/-- Lower bound for the truncating midpoint: `l ≤ (l + h) / 2` when `l ≤ h`. -/
theorem tdiv_two_lower {l h : Int} (hlh : l ≤ h) : l ≤ intDiv (l + h) 2 := by
  rcases le_or_lt 0 (l + h) with hs | hs
  · rw [intDiv, Int.tdiv_eq_ediv hs (by norm_num)]
    omega
  · have hneg : (l + h).tdiv 2 = -((-(l + h)).tdiv 2) := by
      rw [Int.neg_tdiv]; ring
    rw [intDiv, hneg, Int.tdiv_eq_ediv (by omega) (by norm_num)]
    omega

/-- Upper bound for the truncating midpoint: `(l + h) / 2 ≤ h` when `l ≤ h`. -/
theorem tdiv_two_upper {l h : Int} (hlh : l ≤ h) : intDiv (l + h) 2 ≤ h := by
  rcases le_or_lt 0 (l + h) with hs | hs
  · rw [intDiv, Int.tdiv_eq_ediv hs (by norm_num)]
    omega
  · have hneg : (l + h).tdiv 2 = -((-(l + h)).tdiv 2) := by
      rw [Int.neg_tdiv]; ring
    rw [intDiv, hneg, Int.tdiv_eq_ediv (by omega) (by norm_num)]
    omega

/-- The `while low <= high` loop of `BigInt::sqrt` (big_int.rs:70-79):
`mid = (low + high) / 2`; on `mid² = n` return `mid`, on `mid² < n` set
`low = mid + 1`, otherwise `high = mid - 1`; on exhaustion return `high`. -/
def sqrtLoop (n low high : Int) : Int :=
  if hlh : low ≤ high then
    let mid := intDiv (low + high) 2
    if mid * mid = n then mid
    else if mid * mid < n then sqrtLoop n (mid + 1) high
    else sqrtLoop n low (mid - 1)
  else high
termination_by (high + 1 - low).toNat
decreasing_by
  · have h1 := tdiv_two_lower hlh
    have h2 := tdiv_two_upper hlh
    omega
  · have h1 := tdiv_two_lower hlh
    have h2 := tdiv_two_upper hlh
    omega

/-- Translation of `BigInt::sqrt` (big_int.rs:62-82): `None` for negative input, otherwise
binary search over `[0, self]`. -/
def sqrt (n : Int) : Option Int :=
  if n < 0 then none else some (sqrtLoop n 0 n)

/-- Invariant of the binary-search loop: if the true floor square root is
bracketed by `[low, high]` (expressed through the two invariants below), the
loop returns the floor square root of `n`. -/
theorem sqrtLoop_bounds (n : Int) (hn : 0 ≤ n) :
    ∀ low high : Int, 0 ≤ low → -1 ≤ high →
      (low = 0 ∨ (low - 1) * (low - 1) ≤ n) → n < (high + 1) * (high + 1) →
      sqrtLoop n low high * sqrtLoop n low high ≤ n ∧
        n < (sqrtLoop n low high + 1) * (sqrtLoop n low high + 1) := by
  intro low high
  induction low, high using sqrtLoop.induct n with
  | case1 low high hlh mid hmid =>
    intro h0 _ _ _
    have hml := tdiv_two_lower hlh
    rw [sqrtLoop]
    simp only [dif_pos hlh, if_pos hmid]
    constructor
    · exact le_of_eq hmid
    · nlinarith
  | case2 low high hlh mid hne hlt ih =>
    intro h0 hm1 _ hinv2
    have hml := tdiv_two_lower hlh
    have hmh := tdiv_two_upper hlh
    rw [sqrtLoop]
    simp only [dif_pos hlh, if_neg hne, if_pos hlt]
    exact ih (by omega) hm1 (Or.inr (by have : mid + 1 - 1 = mid := by ring
                                        rw [this]; exact le_of_lt hlt)) hinv2
  | case3 low high hlh mid hne hge ih =>
    intro h0 _ hinv1 _
    have hml := tdiv_two_lower hlh
    have hmh := tdiv_two_upper hlh
    rw [sqrtLoop]
    simp only [dif_pos hlh, if_neg hne, if_neg hge]
    refine ih h0 (by omega) hinv1 ?_
    have : mid - 1 + 1 = mid := by ring
    rw [this]
    omega
  | case4 low high hlh =>
    intro h0 hm1 hinv1 hinv2
    rw [sqrtLoop]
    simp only [dif_neg hlh]
    push_neg at hlh
    rcases hinv1 with h | h
    · exfalso
      have hh : high = -1 := by omega
      rw [hh] at hinv2
      norm_num at hinv2
      omega
    · have hh1 : high ≠ -1 := by
        intro hh
        rw [hh] at hinv2
        norm_num at hinv2
        omega
      have hh0 : 0 ≤ high := by omega
      have hlow1 : 0 < low := by
        rcases lt_or_le 0 low with h' | h'
        · exact h'
        · exfalso; omega
      constructor
      · calc high * high ≤ (low - 1) * (low - 1) := by nlinarith
          _ ≤ n := h
      · exact hinv2

/-- The loop started on `[0, n]` computes the mathematical floor square root. -/
theorem sqrtLoop_eq_sqrt (n : Int) (hn : 0 ≤ n) : sqrtLoop n 0 n = Int.sqrt n := by
  obtain ⟨hb1, hb2⟩ :=
    sqrtLoop_bounds n hn 0 n (le_refl 0) (by omega) (Or.inl rfl) (by nlinarith)
  set r := sqrtLoop n 0 n with hr
  have hr0 : 0 ≤ r := by nlinarith
  set s := Int.sqrt n with hs
  have hs0 : 0 ≤ s := Int.sqrt_nonneg n
  have hsl : s * s ≤ n := by
    have := Nat.sqrt_le n.toNat
    have hcast : ((Nat.sqrt n.toNat * Nat.sqrt n.toNat : Nat) : Int) ≤ ((n.toNat : Nat) : Int) :=
      Int.ofNat_le.mpr this
    rw [Int.toNat_of_nonneg hn] at hcast
    simpa [hs, Int.sqrt] using hcast
  have hsu : n < (s + 1) * (s + 1) := by
    have h := Nat.lt_succ_sqrt n.toNat
    have hcast : ((n.toNat : Nat) : Int) <
        ((Nat.sqrt n.toNat : Nat) + 1) * ((Nat.sqrt n.toNat : Nat) + 1) := by
      exact_mod_cast h
    rw [Int.toNat_of_nonneg hn] at hcast
    simpa [hs, Int.sqrt] using hcast
  have h1 : r ≤ s := by nlinarith
  have h2 : s ≤ r := by nlinarith
  omega

/-- Claim C1: for every pair of integers `a`, `b` with `b ≠ 0`, division and
remainder satisfy `a = b * (a / b) + (a % b)`, the quotient is the
mathematical quotient truncated toward zero (its magnitude is the floor of
the magnitude quotient and its sign the product of the operand signs), and
the remainder is zero or has the same sign as the dividend `a`. -/
theorem div_rem_truncating (a b : Int) (hb : b ≠ 0) :
    a = b * intDiv a b + intRem a b ∧
      intDiv a b = a.sign * b.sign * ((a.natAbs / b.natAbs : Nat) : Int) ∧
      (intRem a b = 0 ∨ (intRem a b).sign = a.sign) := by
  refine ⟨(Int.tdiv_add_tmod a b).symm, ?_, ?_⟩
  · -- truncation toward zero, via sign/magnitude decomposition
    have hnat : ∀ m k : Nat, (m : Int).tdiv (k : Int) =
        (m : Int).sign * (k : Int).sign * ((m / k : Nat) : Int) := by
      intro m k
      by_cases hm : m = 0
      · subst hm; simp
      by_cases hk : k = 0
      · subst hk; simp
      have hsm : ((m : Int)).sign = 1 := by
        rw [Int.sign_eq_one_iff_pos]
        exact_mod_cast Nat.pos_of_ne_zero hm
      have hsk : ((k : Int)).sign = 1 := by
        rw [Int.sign_eq_one_iff_pos]
        exact_mod_cast Nat.pos_of_ne_zero hk
      rw [hsm, hsk, ← Int.ofNat_tdiv]
      ring
    rw [intDiv]
    rcases Int.natAbs_eq a with ha | ha <;> rcases Int.natAbs_eq b with hb' | hb'
    · rw [ha, hb', hnat]
      simp
    · conv_lhs => rw [ha, hb']
      rw [Int.tdiv_neg, hnat]
      conv_rhs => rw [ha, hb']
      simp
    · conv_lhs => rw [ha, hb']
      rw [Int.neg_tdiv, hnat]
      conv_rhs => rw [ha, hb']
      simp
    · conv_lhs => rw [ha, hb']
      rw [Int.neg_tdiv, Int.tdiv_neg, hnat]
      conv_rhs => rw [ha, hb']
      simp
  · -- remainder sign
    have hneg : ∀ x y : Int, (-x).tmod y = -(x.tmod y) := by
      intro x y
      have h1 := Int.tdiv_add_tmod x y
      have h2 := Int.tdiv_add_tmod (-x) y
      rw [Int.neg_tdiv] at h2
      linarith
    rcases lt_trichotomy a 0 with ha | ha | ha
    · have h1 : a.tmod b = -((-a).tmod b) := by rw [hneg]; ring
      have h2 : 0 ≤ (-a).tmod b := Int.tmod_nonneg b (by omega)
      rcases eq_or_lt_of_le h2 with h3 | h3
      · left; rw [intRem, h1, ← h3]; ring
      · right
        rw [intRem, h1]
        rw [Int.sign_eq_neg_one_iff_neg.mpr (by omega),
          Int.sign_eq_neg_one_iff_neg.mpr ha]
    · left
      rw [intRem, ha]
      simp
    · have h2 : 0 ≤ a.tmod b := Int.tmod_nonneg b (by omega)
      rcases eq_or_lt_of_le h2 with h3 | h3
      · left; rw [intRem, ← h3]
      · right
        rw [intRem, Int.sign_eq_one_iff_pos.mpr h3, Int.sign_eq_one_iff_pos.mpr ha]

/-- Witness for C1 at `a = -7`, `b = 2`. -/
theorem div_rem_truncating_witness :
    (-7 : Int) = 2 * intDiv (-7) 2 + intRem (-7) 2 ∧
      intDiv (-7 : Int) 2 = (-7 : Int).sign * (2 : Int).sign *
        (((-7 : Int).natAbs / (2 : Int).natAbs : Nat) : Int) ∧
      (intRem (-7 : Int) 2 = 0 ∨ (intRem (-7 : Int) 2).sign = (-7 : Int).sign) :=
  div_rem_truncating (-7) 2 (by norm_num)

/-- Claim C2: for every non-negative integer `n`, `sqrt n` returns a value
`r` with `r * r ≤ n < (r + 1) * (r + 1)` (the floor of the true square
root), and for every negative input `sqrt` returns no value. -/
theorem sqrt_floor_spec (n : Int) :
    (0 ≤ n → ∃ r, sqrt n = some r ∧ r * r ≤ n ∧ n < (r + 1) * (r + 1)) ∧
      (n < 0 → sqrt n = none) := by
  constructor
  · intro hn
    refine ⟨sqrtLoop n 0 n, ?_, ?_⟩
    · rw [sqrt, if_neg (by omega)]
    · exact sqrtLoop_bounds n hn 0 n (le_refl 0) (by omega) (Or.inl rfl) (by nlinarith)
  · intro hn
    rw [sqrt, if_pos hn]

/-- Witness for C2 at `n = 5` and `n = -4`. -/
theorem sqrt_floor_spec_witness :
    (∃ r, sqrt 5 = some r ∧ r * r ≤ 5 ∧ (5 : Int) < (r + 1) * (r + 1)) ∧
      sqrt (-4) = none :=
  ⟨(sqrt_floor_spec 5).1 (by norm_num), (sqrt_floor_spec (-4)).2 (by norm_num)⟩

/-! Section: Byte-buffer import/export: `BigInt::from_bytes_be` / `to_bytes_be`
(big_int.rs:24-32), which delegate to the external backend. -/

/-- Sign tag of the integer engine (`num_bigint::Sign`). -/
inductive ByteSign where
  | minus : ByteSign
  | zero : ByteSign
  | plus : ByteSign
deriving DecidableEq

/-- Value of a big-endian byte buffer. -/
def bytesVal (bs : List Nat) : Nat :=
  bs.foldl (fun a b => 256 * a + b) 0

/-- Big-endian byte buffer of a magnitude, with no leading zero byte; the
zero magnitude yields the empty buffer. -/
def natBytes (n : Nat) : List Nat :=
  if h : n = 0 then [] else natBytes (n / 256) ++ [n % 256]
termination_by n
decreasing_by
  exact Nat.div_lt_self (Nat.pos_of_ne_zero h) (by norm_num)

/-- Modelled from the spec: `BigInt::from_bytes_be` (big_int.rs:24) delegates
to the external backend; per the spec it imports a sign plus a big-endian
magnitude buffer, the zero sign denoting the zero value. -/
def from_bytes_be (sg : ByteSign) (bs : List Nat) : Int :=
  match sg with
  | ByteSign.zero => 0
  | ByteSign.plus => (bytesVal bs : Int)
  | ByteSign.minus => -(bytesVal bs : Int)

/-- Modelled from the spec: `BigInt::to_bytes_be` (big_int.rs:30) delegates
to the external backend; per the spec it exports the sign paired with the
canonical big-endian magnitude buffer (no superfluous leading zero byte, the
zero value exporting the empty buffer with the zero sign). -/
def to_bytes_be (v : Int) : ByteSign × List Nat :=
  (if v = 0 then ByteSign.zero else if v < 0 then ByteSign.minus else ByteSign.plus,
    natBytes v.natAbs)

/-- Canonical `(sign, bytes)` pairs: no leading zero byte in a non-empty
buffer paired with a non-zero sign; the empty buffer paired with the zero
sign. -/
def CanonicalPair (sg : ByteSign) (bs : List Nat) : Prop :=
  (sg = ByteSign.zero ∧ bs = []) ∨
    (sg ≠ ByteSign.zero ∧ bs ≠ [] ∧ bs.headD 0 ≠ 0 ∧ ∀ b ∈ bs, b < 256)

instance (sg : ByteSign) (bs : List Nat) : Decidable (CanonicalPair sg bs) := by
  unfold CanonicalPair
  infer_instance

theorem bytesVal_append (xs : List Nat) (b : Nat) :
    bytesVal (xs ++ [b]) = 256 * bytesVal xs + b := by
  simp [bytesVal, List.foldl_append]

theorem bytesVal_natBytes (n : Nat) : bytesVal (natBytes n) = n := by
  induction n using natBytes.induct with
  | case1 => rw [natBytes]; simp [bytesVal]
  | case2 n h ih =>
    rw [natBytes, dif_neg h, bytesVal_append, ih]
    omega

theorem bytesVal_pos (bs : List Nat) (h1 : bs ≠ []) (h2 : bs.headD 0 ≠ 0) :
    0 < bytesVal bs := by
  have haux : ∀ (l : List Nat) (acc : Nat), 0 < acc →
      0 < l.foldl (fun a b => 256 * a + b) acc := by
    intro l
    induction l with
    | nil => intro acc h; simpa using h
    | cons x xs ih =>
      intro acc h
      simp only [List.foldl_cons]
      exact ih _ (by omega)
  rcases bs with _ | ⟨b, rest⟩
  · exact absurd rfl h1
  · simp only [List.headD_cons] at h2
    simp only [bytesVal, List.foldl_cons]
    exact haux rest (256 * 0 + b) (by omega)

theorem natBytes_bytesVal (bs : List Nat) (h1 : bs ≠ []) (h2 : bs.headD 0 ≠ 0)
    (h3 : ∀ b ∈ bs, b < 256) : natBytes (bytesVal bs) = bs := by
  induction bs using List.reverseRecOn with
  | nil => exact absurd rfl h1
  | append_singleton xs b ih =>
    rcases eq_or_ne xs [] with hxs | hxs
    · subst hxs
      simp only [List.nil_append] at h2 ⊢
      simp only [List.headD_cons] at h2
      have hb : b < 256 := h3 b (by simp)
      have hval : bytesVal [b] = b := by simp [bytesVal]
      rw [hval, natBytes, dif_neg h2]
      rw [Nat.div_eq_of_lt hb, Nat.mod_eq_of_lt hb]
      rw [natBytes]
      simp
    · have hhead : (xs ++ [b]).headD 0 = xs.headD 0 := by
        rcases xs with _ | ⟨x, rest⟩
        · exact absurd rfl hxs
        · simp
      rw [hhead] at h2
      have h3' : ∀ c ∈ xs, c < 256 := fun c hc => h3 c (by simp [hc])
      have hb : b < 256 := h3 b (by simp)
      have ihx := ih hxs h2 h3'
      rw [bytesVal_append]
      have hpos := bytesVal_pos xs hxs h2
      rw [natBytes, dif_neg (by omega)]
      have hdiv : (256 * bytesVal xs + b) / 256 = bytesVal xs := by omega
      have hmod : (256 * bytesVal xs + b) % 256 = b := by omega
      rw [hdiv, hmod, ihx]

/-- Claim C5: re-importing the exported `(sign, bytes)` pair of any integer
yields the same value; importing then exporting a canonical `(sign, bytes)`
pair returns exactly the same pair; the zero integer exports the empty
buffer with the zero sign. -/
theorem bytes_roundtrip :
    (∀ v : Int, from_bytes_be (to_bytes_be v).1 (to_bytes_be v).2 = v) ∧
      (∀ (sg : ByteSign) (bs : List Nat), CanonicalPair sg bs →
        to_bytes_be (from_bytes_be sg bs) = (sg, bs)) ∧
      to_bytes_be 0 = (ByteSign.zero, []) := by
  have hzero : natBytes 0 = [] := by rw [natBytes]; simp
  refine ⟨?_, ?_, ?_⟩
  · intro v
    rcases lt_trichotomy v 0 with hv | hv | hv
    · rw [to_bytes_be]
      simp only [if_neg (by omega : ¬ v = 0), if_pos hv]
      rw [from_bytes_be]
      rw [bytesVal_natBytes]
      omega
    · subst hv
      simp [to_bytes_be, from_bytes_be]
    · rw [to_bytes_be]
      simp only [if_neg (by omega : ¬ v = 0), if_neg (by omega : ¬ v < 0)]
      rw [from_bytes_be]
      rw [bytesVal_natBytes]
      omega
  · intro sg bs hc
    rcases hc with ⟨hsg, hbs⟩ | ⟨hsg, hbs, hhead, hbound⟩
    · subst hsg; subst hbs
      simp [from_bytes_be, to_bytes_be, hzero]
    · have hpos := bytesVal_pos bs hbs hhead
      have hnb := natBytes_bytesVal bs hbs hhead hbound
      cases sg with
      | zero => exact absurd rfl hsg
      | plus =>
        rw [from_bytes_be, to_bytes_be]
        have hv0 : ((bytesVal bs : Int)) ≠ 0 := by exact_mod_cast hpos.ne'
        have hvn : ¬ ((bytesVal bs : Int) < 0) := not_lt.mpr (Int.natCast_nonneg _)
        simp only [if_neg hv0, if_neg hvn, Int.natAbs_ofNat, hnb]
      | minus =>
        rw [from_bytes_be, to_bytes_be]
        have hv0 : (-(bytesVal bs : Int)) ≠ 0 := by
          simp only [ne_eq, neg_eq_zero]
          exact_mod_cast hpos.ne'
        have hvn : (-(bytesVal bs : Int)) < 0 := by
          simp only [Left.neg_neg_iff]
          exact_mod_cast hpos
        simp only [if_neg hv0, if_pos hvn, Int.natAbs_neg, Int.natAbs_ofNat, hnb]
  · simp [to_bytes_be, hzero]

/-- Witness for C5 at `v = -300` and the canonical pair `(plus, [1, 44])`. -/
theorem bytes_roundtrip_witness :
    from_bytes_be (to_bytes_be (-300)).1 (to_bytes_be (-300)).2 = -300 ∧
      CanonicalPair ByteSign.plus [1, 44] ∧
      to_bytes_be (from_bytes_be ByteSign.plus [1, 44]) = (ByteSign.plus, [1, 44]) :=
  ⟨bytes_roundtrip.1 (-300), by decide,
    bytes_roundtrip.2.1 ByteSign.plus [1, 44] (by decide)⟩

/-! Section: Decimal parsing: `BigInt::from_string` (big_int.rs:20-22), which
delegates to the external backend's base-10 parser. -/

/-- Decimal value of a digit string. -/
def digitsVal (cs : List Char) : Nat :=
  cs.foldl (fun a c => 10 * a + (c.toNat - 48)) 0

/-- Modelled from the spec: `BigInt::from_string` (big_int.rs:20) delegates
to the external backend's parser, whose source is not part of this
repository; per the spec it accepts an optional leading `-` followed by one
or more decimal digits, and fails (no value) on any other character, empty
input, or a lone sign. -/
def from_string (cs : List Char) : Option Int :=
  match cs with
  | [] => none
  | c :: rest =>
    if c = '-' then
      if rest ≠ [] ∧ rest.all Char.isDigit then some (-(digitsVal rest : Int))
      else none
    else
      if (c :: rest).all Char.isDigit then some ((digitsVal (c :: rest) : Nat) : Int)
      else none

/-- Claim C6: `from_string` accepts exactly the strings consisting of an
optional leading `-` followed by one or more decimal digits; it returns no
value for every other string (including empty input and a lone sign), and
returns the denoted integer value for every accepted string. -/
theorem from_string_spec (cs : List Char) :
    ((from_string cs).isSome ↔
      (cs ≠ [] ∧ cs.all Char.isDigit = true) ∨
        (∃ rest, cs = '-' :: rest ∧ rest ≠ [] ∧ rest.all Char.isDigit = true)) ∧
      (cs ≠ [] → cs.all Char.isDigit = true → from_string cs = some ((digitsVal cs : Nat) : Int)) ∧
      (∀ rest, cs = '-' :: rest → rest ≠ [] → rest.all Char.isDigit = true →
        from_string cs = some (-(digitsVal rest : Int))) := by
  have hdash : ('-').isDigit = false := by decide
  refine ⟨?_, ?_, ?_⟩
  · constructor
    · intro hsome
      rcases cs with _ | ⟨c, rest⟩
      · simp [from_string] at hsome
      · by_cases hc : c = '-'
        · subst hc
          by_cases hr : rest ≠ [] ∧ rest.all Char.isDigit
          · exact Or.inr ⟨rest, rfl, hr.1, hr.2⟩
          · rw [from_string, if_pos rfl, if_neg hr] at hsome
            simp at hsome
        · by_cases hd : (c :: rest).all Char.isDigit
          · exact Or.inl ⟨by simp, hd⟩
          · rw [from_string, if_neg hc, if_neg hd] at hsome
            simp at hsome
    · rintro (⟨hne, hall⟩ | ⟨rest, rfl, hne, hall⟩)
      · rcases cs with _ | ⟨c, rest⟩
        · exact absurd rfl hne
        · have hc : c ≠ '-' := by
            intro hc
            subst hc
            simp only [List.all_cons, Bool.and_eq_true] at hall
            rw [hdash] at hall
            exact absurd hall.1 (by simp)
          rw [from_string, if_neg hc, if_pos hall]
          simp
      · rw [from_string, if_pos rfl, if_pos ⟨hne, hall⟩]
        simp
  · intro hne hall
    rcases cs with _ | ⟨c, rest⟩
    · exact absurd rfl hne
    · have hc : c ≠ '-' := by
        intro hc
        subst hc
        simp only [List.all_cons, Bool.and_eq_true] at hall
        rw [hdash] at hall
        exact absurd hall.1 (by simp)
      rw [from_string, if_neg hc, if_pos hall]
  · rintro rest rfl hne hall
    rw [from_string, if_pos rfl, if_pos ⟨hne, hall⟩]

/-- Witness for C6 at `"-123"`, `"42"`, and the rejected `"-"`. -/
theorem from_string_spec_witness :
    from_string ['-', '1', '2', '3'] = some (-(digitsVal ['1', '2', '3'] : Int)) ∧
      from_string ['4', '2'] = some ((digitsVal ['4', '2'] : Nat) : Int) ∧
      ¬ (from_string ['-']).isSome :=
  ⟨(from_string_spec ['-', '1', '2', '3']).2.2 ['1', '2', '3'] rfl (by decide) (by decide),
    (from_string_spec ['4', '2']).2.1 (by decide) (by decide),
    fun h => by
      rcases (from_string_spec ['-']).1.mp h with ⟨_, hall⟩ | ⟨rest, heq, hne, _⟩
      · exact absurd hall (by decide)
      · rcases heq with heq
        injection heq with h1 h2
        exact hne h2.symm⟩

/-! Section: Decimal rendering: `impl Display for BigInt` (big_int.rs:256-260),
which delegates to the external backend. -/

/-- Decimal digits of a magnitude, most significant first; empty for zero. -/
def natDigits10 (n : Nat) : List Nat :=
  if h : n = 0 then [] else natDigits10 (n / 10) ++ [n % 10]
termination_by n
decreasing_by
  exact Nat.div_lt_self (Nat.pos_of_ne_zero h) (by norm_num)

/-- Modelled from the spec: `Display for BigInt` delegates to the external
backend; per the spec it renders the canonical decimal form (optional
leading `-`, no leading zero digits, literal `"0"` for zero). -/
def natStr (n : Nat) : String :=
  if n = 0 then "0"
  else String.mk ((natDigits10 n).map fun d => Char.ofNat (48 + d))

/-- Decimal form of a signed integer: `-` prefix plus magnitude digits. -/
def intStr (v : Int) : String :=
  if v < 0 then "-" ++ natStr v.natAbs else natStr v.natAbs

/-! Section: Complex layer: `src/big_complex.rs` -/

/-- Translation of `BigComplex` (big_complex.rs:6-10): a pair of integer-engine values. -/
structure BigComplex where
  real : Int
  imag : Int
deriving DecidableEq

namespace BigComplex

/-- Translation of `Zero::zero` for `BigComplex` (big_complex.rs:269-275). -/
def zeroC : BigComplex := ⟨0, 0⟩

/-- Translation of `One::one` for `BigComplex` (big_complex.rs:282-289). -/
def oneC : BigComplex := ⟨1, 0⟩

/-- Translation of `impl Div for BigComplex` (big_complex.rs:357-377): the panicking
branch on a zero denominator is modelled as `none`; otherwise both
components of `self * conjugate(other)` are divided by `c² + d²` with the
integer engine's truncating division. -/
def div (z w : BigComplex) : Option BigComplex :=
  let denom := w.real * w.real + w.imag * w.imag
  if denom = 0 then none
  else some ⟨intDiv (z.real * w.real + z.imag * w.imag) denom,
    intDiv (z.imag * w.real - z.real * w.imag) denom⟩

/-- Translation of `BigComplex::scale` (big_complex.rs:43-48). -/
def scale (z : BigComplex) (factor : Int) : BigComplex :=
  ⟨z.real * factor, z.imag * factor⟩

/-- Translation of `BigComplex::div_exact` (big_complex.rs:96-112): `None` on a zero
divisor or when either component has a non-zero remainder. -/
def div_exact (z : BigComplex) (divisor : Int) : Option BigComplex :=
  if divisor = 0 then none
  else
    let real_rem := intRem z.real divisor
    let imag_rem := intRem z.imag divisor
    if ¬ real_rem = 0 ∨ ¬ imag_rem = 0 then none
    else some ⟨intDiv z.real divisor, intDiv z.imag divisor⟩

/-- Translation of `BigComplex::from_polar` (big_complex.rs:129-139): matches on
`theta_approx % 4` (Rust's truncating remainder); the `unreachable!()` arm,
hit by negative remainders, is modelled as `none`. -/
def from_polar (r : Int) (theta : Int) : Option BigComplex :=
  let m := intRem theta 4
  if m = 0 then some ⟨r, 0⟩
  else if m = 1 then some ⟨0, r⟩
  else if m = 2 then some ⟨-r, 0⟩
  else if m = 3 then some ⟨0, -r⟩
  else none

/-- Translation of `BigComplex::arg_quadrant` (big_complex.rs:141-153): `None` for the
zero value, otherwise classified by `(is_positive real, is_positive imag)`. -/
def arg_quadrant (z : BigComplex) : Option Int :=
  if z.real = 0 ∧ z.imag = 0 then none
  else if 0 < z.real then
    if 0 < z.imag then some 0 else some 3
  else
    if 0 < z.imag then some 1 else some 2

/-- Translation of `BigComplex::nth_root` (big_complex.rs:170-206).  The locally computed
`_mag` of the source is unused there and omitted here. -/
def nth_root (z : BigComplex) (n : Nat) : List BigComplex :=
  if n = 0 then []
  else if z.real = 0 ∧ z.imag = 0 then [zeroC]
  else if n = 1 then [z]
  else if n = 2 then
    if z.imag = 0 ∧ 0 < z.real then
      let s := (sqrt z.real).getD 0
      [⟨s, 0⟩, ⟨-s, 0⟩]
    else if z.imag = 0 ∧ z.real < 0 then
      let s := (sqrt (-z.real)).getD 0
      [⟨0, s⟩, ⟨0, -s⟩]
    else [oneC]
  else [oneC]

/-- Translation of `impl Display for BigComplex` (big_complex.rs:423-440). -/
def display (z : BigComplex) : String :=
  if z.imag = 0 then intStr z.real
  else if z.real = 0 then
    if z.imag = 1 then "i"
    else if z.imag = -1 then "-i"
    else intStr z.imag ++ "i"
  else
    intStr z.real ++ (if 0 < z.imag then "+" else "") ++ intStr z.imag ++ "i"

end BigComplex

/-- A sum of two squares vanishes only when both operands vanish. -/
theorem sumSq_eq_zero {a b : Int} : a * a + b * b = 0 ↔ a = 0 ∧ b = 0 := by
  constructor
  · intro h
    constructor <;> nlinarith [mul_self_nonneg a, mul_self_nonneg b]
  · rintro ⟨rfl, rfl⟩
    ring

/-- Claim C3: complex division panics exactly on the zero divisor, and for
every non-zero divisor `w = c + di` it yields
`((a*c + b*d)/(c² + d²)) + ((b*c - a*d)/(c² + d²))i`, both component
divisions being the integer engine's truncating division. -/
theorem div_spec (z w : BigComplex) :
    (BigComplex.div z w = none ↔ w = BigComplex.zeroC) ∧
      (w ≠ BigComplex.zeroC →
        BigComplex.div z w = some
          ⟨intDiv (z.real * w.real + z.imag * w.imag) (w.real * w.real + w.imag * w.imag),
            intDiv (z.imag * w.real - z.real * w.imag) (w.real * w.real + w.imag * w.imag)⟩) := by
  have hz : w = BigComplex.zeroC ↔ w.real = 0 ∧ w.imag = 0 := by
    cases w
    simp [BigComplex.zeroC, BigComplex.mk.injEq]
  constructor
  · rw [BigComplex.div]
    by_cases hd : w.real * w.real + w.imag * w.imag = 0
    · simp only [if_pos hd]
      rw [hz]
      simp [sumSq_eq_zero.mp hd]
    · simp only [if_neg hd]
      rw [hz]
      constructor
      · intro h; exact absurd h (by simp)
      · intro h
        exact absurd (sumSq_eq_zero.mpr h) hd
  · intro hw
    have hd : ¬ (w.real * w.real + w.imag * w.imag = 0) := by
      intro h
      exact hw (hz.mpr (sumSq_eq_zero.mp h))
    rw [BigComplex.div]
    simp only [if_neg hd]

/-- Witness for C3 at `z = 3 + 4i`, `w = 1 + 2i` (the quotient `2 + 0i` of
the source's own test suite). -/
theorem div_spec_witness :
    BigComplex.div ⟨3, 4⟩ ⟨1, 2⟩ = some ⟨2, 0⟩ := by
  have h := (div_spec ⟨3, 4⟩ ⟨1, 2⟩).2 (by decide)
  rw [h]
  decide

/-- Claim C9: `div_exact (scale z k) k = some z` for every non-zero `k`,
and `div_exact z k` yields no value exactly when `k` is zero or some
component of `z` does not divide evenly by `k`. -/
theorem div_exact_spec (z : BigComplex) (k : Int) :
    (k ≠ 0 → BigComplex.div_exact (BigComplex.scale z k) k = some z) ∧
      (BigComplex.div_exact z k = none ↔
        k = 0 ∨ ¬ (k ∣ z.real) ∨ ¬ (k ∣ z.imag)) := by
  constructor
  · intro hk
    rw [BigComplex.scale, BigComplex.div_exact]
    simp only [if_neg hk]
    have h1 : intRem (z.real * k) k = 0 := Int.mul_tmod_left z.real k
    have h2 : intRem (z.imag * k) k = 0 := Int.mul_tmod_left z.imag k
    simp only [h1, h2, not_true, or_self, if_false]
    rw [intDiv, intDiv, Int.mul_tdiv_cancel z.real hk, Int.mul_tdiv_cancel z.imag hk]
  · rw [BigComplex.div_exact]
    by_cases hk : k = 0
    · simp [hk]
    · simp only [if_neg hk]
      have hr : (k ∣ z.real) ↔ intRem z.real k = 0 := Int.dvd_iff_tmod_eq_zero
      have hi : (k ∣ z.imag) ↔ intRem z.imag k = 0 := Int.dvd_iff_tmod_eq_zero
      by_cases hcond : ¬ intRem z.real k = 0 ∨ ¬ intRem z.imag k = 0
      · simp only [if_pos hcond]
        constructor
        · intro _
          rcases hcond with h | h
          · exact Or.inr (Or.inl (by rw [hr]; exact h))
          · exact Or.inr (Or.inr (by rw [hi]; exact h))
        · intro _; trivial
      · simp only [if_neg hcond]
        push_neg at hcond
        constructor
        · intro h; exact absurd h (by simp)
        · rintro (h | h | h)
          · exact absurd h hk
          · exact absurd (hr.mpr hcond.1) h
          · exact absurd (hi.mpr hcond.2) h

/-- Witness for C9 at `z = 3 + 4i`, `k = 2`. -/
theorem div_exact_spec_witness :
    BigComplex.div_exact (BigComplex.scale ⟨3, 4⟩ 2) 2 = some ⟨3, 4⟩ :=
  (div_exact_spec ⟨3, 4⟩ 2).1 (by norm_num)

/-- Claim C10: `arg_quadrant` returns a quadrant for every non-zero value,
classifying by strict positivity of each component: positive real axis
yields quadrant 3, positive imaginary axis yields quadrant 1, and values
with both components non-positive yield quadrant 2. -/
theorem arg_quadrant_spec (z : BigComplex) :
    (z ≠ BigComplex.zeroC → (BigComplex.arg_quadrant z).isSome) ∧
      (0 < z.real → z.imag = 0 → BigComplex.arg_quadrant z = some 3) ∧
      (z.real = 0 → 0 < z.imag → BigComplex.arg_quadrant z = some 1) ∧
      (z ≠ BigComplex.zeroC → z.real ≤ 0 → z.imag ≤ 0 →
        BigComplex.arg_quadrant z = some 2) := by
  have hz : z = BigComplex.zeroC ↔ z.real = 0 ∧ z.imag = 0 := by
    cases z
    simp [BigComplex.zeroC, BigComplex.mk.injEq]
  refine ⟨?_, ?_, ?_, ?_⟩
  · intro hne
    rw [BigComplex.arg_quadrant, if_neg (fun h => hne (hz.mpr h))]
    by_cases h1 : 0 < z.real <;> by_cases h2 : 0 < z.imag <;> simp [h1, h2]
  · intro hr hi
    rw [BigComplex.arg_quadrant, if_neg (by omega), if_pos hr, if_neg (by omega)]
  · intro hr hi
    rw [BigComplex.arg_quadrant, if_neg (by omega), if_neg (by omega), if_pos hi]
  · intro hne hr hi
    rw [BigComplex.arg_quadrant, if_neg (fun h => hne (hz.mpr h)),
      if_neg (by omega), if_neg (by omega)]

/-- Witness for C10 at `3 + 0i`, `0 + 3i`, and `-3 + 0i`. -/
theorem arg_quadrant_spec_witness :
    BigComplex.arg_quadrant ⟨3, 0⟩ = some 3 ∧
      BigComplex.arg_quadrant ⟨0, 3⟩ = some 1 ∧
      BigComplex.arg_quadrant ⟨-3, 0⟩ = some 2 :=
  ⟨(arg_quadrant_spec ⟨3, 0⟩).2.1 (by norm_num) rfl,
    (arg_quadrant_spec ⟨0, 3⟩).2.2.1 rfl (by norm_num),
    (arg_quadrant_spec ⟨-3, 0⟩).2.2.2 (by decide) (by norm_num) (by norm_num)⟩

/-! Section: Polar construction (claim C8) -/

/-- The four-entry angle table of `from_polar`: `0 ↦ (r, 0)`, `1 ↦ (0, r)`,
`2 ↦ (-r, 0)`, `3 ↦ (0, -r)`. -/
def polarTable (r m : Int) : BigComplex :=
  if m = 0 then ⟨r, 0⟩
  else if m = 1 then ⟨0, r⟩
  else if m = 2 then ⟨-r, 0⟩
  else ⟨0, -r⟩

/-- Counterexample to C8 as stated: at angle code `t = -1` the match on the
truncating remainder `-1 % 4 = -1` reaches the `unreachable!()` arm, so
`from_polar` is not defined there (the claim asserts it is defined for every
integer code, equalling the value at `t mod 4`, here `0 - 5i`). -/
theorem from_polar_negative_cex :
    BigComplex.from_polar 5 (-1) = none ∧ intRem (-1) 4 = -1 := by
  constructor
  · rw [BigComplex.from_polar]
    decide
  · decide

/-- Claim C8 (amended): for every magnitude `r` and every non-negative
angle code `t`, `from_polar r t` is defined, takes the code modulo 4
through the four-entry table, and produces the same value as code
`t mod 4`; for negative `t` not divisible by 4 the truncating remainder is
negative and the match reaches the `unreachable!()` arm (no value). -/
theorem from_polar_spec (r t : Int) :
    (0 ≤ t →
      BigComplex.from_polar r t = some (polarTable r (intRem t 4)) ∧
        BigComplex.from_polar r t = BigComplex.from_polar r (intRem t 4)) ∧
      (t < 0 → intRem t 4 ≠ 0 → BigComplex.from_polar r t = none) := by
  constructor
  · intro ht
    have hm : intRem t 4 = t % 4 := Int.tmod_eq_emod ht (by norm_num)
    have hrange : intRem t 4 = 0 ∨ intRem t 4 = 1 ∨ intRem t 4 = 2 ∨ intRem t 4 = 3 := by
      rw [hm]; omega
    have em0 : intRem (0 : Int) 4 = 0 := by decide
    have em1 : intRem (1 : Int) 4 = 1 := by decide
    have em2 : intRem (2 : Int) 4 = 2 := by decide
    have em3 : intRem (3 : Int) 4 = 3 := by decide
    rcases hrange with h | h | h | h
    · constructor
      · simp [BigComplex.from_polar, h, polarTable]
      · rw [h]; simp [BigComplex.from_polar, h, em0]
    · constructor
      · simp [BigComplex.from_polar, h, polarTable]
      · rw [h]; simp [BigComplex.from_polar, h, em1]
    · constructor
      · simp [BigComplex.from_polar, h, polarTable]
      · rw [h]; simp [BigComplex.from_polar, h, em2]
    · constructor
      · simp [BigComplex.from_polar, h, polarTable]
      · rw [h]; simp [BigComplex.from_polar, h, em3]
  · intro ht hm0
    have hneg : intRem t 4 = -((-t).tmod 4) := by
      have h1 := Int.tdiv_add_tmod t 4
      have h2 := Int.tdiv_add_tmod (-t) 4
      rw [Int.neg_tdiv] at h2
      rw [intRem]
      linarith
    have hpos : 0 ≤ (-t).tmod 4 := Int.tmod_nonneg 4 (by omega)
    have hlt : (-t).tmod 4 < 4 := by
      rw [Int.tmod_eq_emod (by omega) (by norm_num)]
      omega
    have hm : intRem t 4 < 0 := by
      rw [hneg]
      rcases eq_or_lt_of_le hpos with h | h
      · exfalso; apply hm0; rw [hneg, ← h]; ring
      · omega
    have hmge : -3 ≤ intRem t 4 := by rw [hneg]; omega
    rw [BigComplex.from_polar]
    simp only [if_neg (by omega : ¬ intRem t 4 = 0), if_neg (by omega : ¬ intRem t 4 = 1),
      if_neg (by omega : ¬ intRem t 4 = 2), if_neg (by omega : ¬ intRem t 4 = 3)]

/-- Witness for C8 (amended) at `r = 5`, `t = 7` and `t = -2`. -/
theorem from_polar_spec_witness :
    (BigComplex.from_polar 5 7 = some (polarTable 5 (intRem 7 4)) ∧
      BigComplex.from_polar 5 7 = BigComplex.from_polar 5 (intRem 7 4)) ∧
      BigComplex.from_polar 5 (-2) = none :=
  ⟨(from_polar_spec 5 7).1 (by norm_num),
    (from_polar_spec 5 (-2)).2 (by norm_num) (by decide)⟩

/-! Section: nth roots (claim C4) -/

/-- Perfect squares are taken to their exact roots by the binary-search
square root. -/
theorem sqrt_perfect (s : Int) (hs : 0 ≤ s) : sqrt (s * s) = some s := by
  rw [sqrt, if_neg (by nlinarith)]
  rw [sqrtLoop_eq_sqrt _ (by nlinarith)]
  rw [Int.sqrt_eq, Int.natAbs_of_nonneg hs]

/-- The binary-search square root of 5 is 2 (a floor value: 5 is not a
perfect square). -/
theorem sqrt_five : sqrt 5 = some 2 := by
  rw [sqrt, if_neg (by norm_num)]
  rw [sqrtLoop_eq_sqrt 5 (by norm_num)]
  have h1 : 2 ≤ Nat.sqrt 5 := Nat.le_sqrt.mpr (by norm_num)
  have h2 : Nat.sqrt 5 < 3 := Nat.sqrt_lt.mpr (by norm_num)
  have h3 : Nat.sqrt 5 = 2 := by omega
  have ht : (5 : Int).toNat = 5 := rfl
  rw [Int.sqrt, ht, h3]
  rfl

/-- Counterexample to C4 as stated: `(5, 0)` with `n = 2` is not covered by
any of the claim's listed special cases (5 is not a perfect square), so the
claim asserts the result is the placeholder `[1 + 0i]`; the code instead
returns the pair built from the floor square root `isqrt 5 = 2`. -/
theorem nth_root_placeholder_cex :
    BigComplex.nth_root ⟨5, 0⟩ 2 = [⟨2, 0⟩, ⟨-2, 0⟩] ∧
      BigComplex.nth_root ⟨5, 0⟩ 2 ≠ [BigComplex.oneC] := by
  have h : BigComplex.nth_root ⟨5, 0⟩ 2 = [⟨2, 0⟩, ⟨-2, 0⟩] := by
    rw [BigComplex.nth_root]
    simp only [if_neg (by norm_num : ¬ (2 : Nat) = 0),
      if_neg (by norm_num : ¬ ((5 : Int) = 0 ∧ (0 : Int) = 0)),
      if_neg (by norm_num : ¬ (2 : Nat) = 1), if_pos rfl,
      if_pos (by norm_num : (0 : Int) = 0 ∧ (0 : Int) < 5)]
    rw [sqrt_five]
    rfl
  exact ⟨h, by rw [h]; decide⟩

/-- Claim C4 (amended): `nth_root z 0 = []`; the zero value has root list
`[0]` for every `n ≠ 0`; `nth_root z 1 = [z]`; `n = 2` on a real non-zero
input yields the pair built from the floor integer square root of the
magnitude of the real component, on the real axis for positive reals and
the imaginary axis for negative reals — hence the exact pair of square
roots whenever that component is a perfect square; `n = 2` on a non-real
input and every `n ≥ 3` yield the fixed placeholder `[1 + 0i]`. -/
theorem nth_root_cases (z : BigComplex) (n : Nat) :
    BigComplex.nth_root z 0 = [] ∧
      (z = BigComplex.zeroC → n ≠ 0 → BigComplex.nth_root z n = [BigComplex.zeroC]) ∧
      (z ≠ BigComplex.zeroC → BigComplex.nth_root z 1 = [z]) ∧
      (z.imag = 0 → 0 < z.real → BigComplex.nth_root z 2 =
        [⟨(sqrt z.real).getD 0, 0⟩, ⟨-((sqrt z.real).getD 0), 0⟩]) ∧
      (z.imag = 0 → z.real < 0 → BigComplex.nth_root z 2 =
        [⟨0, (sqrt (-z.real)).getD 0⟩, ⟨0, -((sqrt (-z.real)).getD 0)⟩]) ∧
      (∀ s : Int, 0 ≤ s → s * s = z.real → 0 < z.real → z.imag = 0 →
        BigComplex.nth_root z 2 = [⟨s, 0⟩, ⟨-s, 0⟩]) ∧
      (∀ s : Int, 0 ≤ s → s * s = -z.real → z.real < 0 → z.imag = 0 →
        BigComplex.nth_root z 2 = [⟨0, s⟩, ⟨0, -s⟩]) ∧
      (z ≠ BigComplex.zeroC → z.imag ≠ 0 → BigComplex.nth_root z 2 = [BigComplex.oneC]) ∧
      (z ≠ BigComplex.zeroC → 3 ≤ n → BigComplex.nth_root z n = [BigComplex.oneC]) := by
  have hz : z = BigComplex.zeroC ↔ z.real = 0 ∧ z.imag = 0 := by
    cases z
    simp [BigComplex.zeroC, BigComplex.mk.injEq]
  have hpos : z.imag = 0 → 0 < z.real → BigComplex.nth_root z 2 =
      [⟨(sqrt z.real).getD 0, 0⟩, ⟨-((sqrt z.real).getD 0), 0⟩] := by
    intro him hre
    rw [BigComplex.nth_root]
    rw [if_neg (by norm_num : ¬ (2 : Nat) = 0), if_neg (by omega : ¬ (z.real = 0 ∧ z.imag = 0)),
      if_neg (by norm_num : ¬ (2 : Nat) = 1), if_pos rfl, if_pos ⟨him, hre⟩]
  have hneg : z.imag = 0 → z.real < 0 → BigComplex.nth_root z 2 =
      [⟨0, (sqrt (-z.real)).getD 0⟩, ⟨0, -((sqrt (-z.real)).getD 0)⟩] := by
    intro him hre
    rw [BigComplex.nth_root]
    rw [if_neg (by norm_num : ¬ (2 : Nat) = 0), if_neg (by omega : ¬ (z.real = 0 ∧ z.imag = 0)),
      if_neg (by norm_num : ¬ (2 : Nat) = 1), if_pos rfl,
      if_neg (by omega : ¬ (z.imag = 0 ∧ 0 < z.real)), if_pos ⟨him, hre⟩]
  refine ⟨?_, ?_, ?_, hpos, hneg, ?_, ?_, ?_, ?_⟩
  · rw [BigComplex.nth_root, if_pos rfl]
  · intro hzz hn
    rw [BigComplex.nth_root, if_neg hn, if_pos (hz.mp hzz)]
  · intro hne
    rw [BigComplex.nth_root, if_neg (by norm_num : ¬ (1 : Nat) = 0),
      if_neg (fun h => hne (hz.mpr h)), if_pos rfl]
  · intro s hs hsq hre him
    rw [hpos him hre, ← hsq, sqrt_perfect s hs]
    rfl
  · intro s hs hsq hre him
    rw [hneg him hre, ← hsq, sqrt_perfect s hs]
    rfl
  · intro hne him
    rw [BigComplex.nth_root, if_neg (by norm_num : ¬ (2 : Nat) = 0),
      if_neg (fun h => hne (hz.mpr h)), if_neg (by norm_num : ¬ (2 : Nat) = 1), if_pos rfl,
      if_neg (by tauto : ¬ (z.imag = 0 ∧ 0 < z.real)),
      if_neg (by tauto : ¬ (z.imag = 0 ∧ z.real < 0))]
  · intro hne hn
    rw [BigComplex.nth_root, if_neg (by omega : ¬ n = 0),
      if_neg (fun h => hne (hz.mpr h)), if_neg (by omega : ¬ n = 1),
      if_neg (by omega : ¬ n = 2)]

/-- Witness for C4 (amended) at `z = 4 + 0i`, `n = 2` (exact roots `±2`)
and at `z = 1 + 1i`, `n = 3` (placeholder). -/
theorem nth_root_cases_witness :
    BigComplex.nth_root ⟨4, 0⟩ 2 = [⟨2, 0⟩, ⟨-2, 0⟩] ∧
      BigComplex.nth_root ⟨1, 1⟩ 3 = [BigComplex.oneC] := by
  constructor
  · have h := (nth_root_cases ⟨4, 0⟩ 2).2.2.2.2.2.1 2 (by norm_num) (by norm_num)
      (by norm_num) rfl
    exact h
  · exact (nth_root_cases ⟨1, 1⟩ 3).2.2.2.2.2.2.2.2 (by decide) (by norm_num)

/-! Section: Display rendering (claim C7) -/

theorem natDigits10_zero : natDigits10 0 = [] := by
  rw [natDigits10]
  simp

theorem natDigits10_small (n : Nat) (h1 : n ≠ 0) (h2 : n < 10) :
    natDigits10 n = [n] := by
  rw [natDigits10, dif_neg h1, Nat.div_eq_of_lt h2, Nat.mod_eq_of_lt h2,
    natDigits10_zero]
  rfl

theorem intStr_zero : intStr 0 = "0" := by
  rw [intStr, if_neg (by norm_num)]
  rfl

theorem intStr_three : intStr 3 = "3" := by
  rw [intStr, if_neg (by norm_num)]
  have h : (3 : Int).natAbs = 3 := rfl
  rw [h, natStr, if_neg (by norm_num), natDigits10_small 3 (by norm_num) (by norm_num)]
  rfl

theorem intStr_five : intStr 5 = "5" := by
  rw [intStr, if_neg (by norm_num)]
  have h : (5 : Int).natAbs = 5 := rfl
  rw [h, natStr, if_neg (by norm_num), natDigits10_small 5 (by norm_num) (by norm_num)]
  rfl

theorem intStr_neg_three : intStr (-3) = "-3" := by
  rw [intStr, if_pos (by norm_num)]
  have h : (-3 : Int).natAbs = 3 := rfl
  rw [h, natStr, if_neg (by norm_num), natDigits10_small 3 (by norm_num) (by norm_num)]
  rfl

theorem intStr_neg_four : intStr (-4) = "-4" := by
  rw [intStr, if_pos (by norm_num)]
  have h : (-4 : Int).natAbs = 4 := rfl
  rw [h, natStr, if_neg (by norm_num), natDigits10_small 4 (by norm_num) (by norm_num)]
  rfl

/-- Claim C7: the complex display renders the zero value as `"0"`; a pure
real value as the real component's decimal form; a pure imaginary value
with imaginary 1 as `"i"`, with imaginary -1 as `"-i"`, and otherwise as
`"{imag}i"`; and a mixed value as `"{real}{sign}{imag}i"` with `{sign}`
equal to `"+"` exactly when the imaginary component is positive — so
`5 - 3i` renders as `"5-3i"`, never `"5+-3i"`. -/
theorem display_spec :
    (∀ z : BigComplex,
      (z = BigComplex.zeroC → BigComplex.display z = "0") ∧
      (z.imag = 0 → BigComplex.display z = intStr z.real) ∧
      (z.real = 0 → z.imag = 1 → BigComplex.display z = "i") ∧
      (z.real = 0 → z.imag = -1 → BigComplex.display z = "-i") ∧
      (z.real = 0 → z.imag ≠ 0 → z.imag ≠ 1 → z.imag ≠ -1 →
        BigComplex.display z = intStr z.imag ++ "i") ∧
      (z.real ≠ 0 → z.imag ≠ 0 → BigComplex.display z =
        intStr z.real ++ (if 0 < z.imag then "+" else "") ++ intStr z.imag ++ "i")) ∧
      BigComplex.display ⟨5, -3⟩ = "5-3i" ∧
      BigComplex.display ⟨5, -3⟩ ≠ "5+-3i" ∧
      BigComplex.display ⟨3, -4⟩ = "3-4i" ∧
      BigComplex.display ⟨0, 0⟩ = "0" := by
  have hmain : ∀ z : BigComplex,
      (z = BigComplex.zeroC → BigComplex.display z = "0") ∧
      (z.imag = 0 → BigComplex.display z = intStr z.real) ∧
      (z.real = 0 → z.imag = 1 → BigComplex.display z = "i") ∧
      (z.real = 0 → z.imag = -1 → BigComplex.display z = "-i") ∧
      (z.real = 0 → z.imag ≠ 0 → z.imag ≠ 1 → z.imag ≠ -1 →
        BigComplex.display z = intStr z.imag ++ "i") ∧
      (z.real ≠ 0 → z.imag ≠ 0 → BigComplex.display z =
        intStr z.real ++ (if 0 < z.imag then "+" else "") ++ intStr z.imag ++ "i") := by
    intro z
    refine ⟨?_, ?_, ?_, ?_, ?_, ?_⟩
    · rintro rfl
      have h0 : BigComplex.zeroC.imag = 0 := rfl
      have h1 : BigComplex.zeroC.real = 0 := rfl
      rw [BigComplex.display, if_pos h0, h1, intStr_zero]
    · intro him
      rw [BigComplex.display, if_pos him]
    · intro hre him
      rw [BigComplex.display, if_neg (by omega), if_pos hre, if_pos him]
    · intro hre him
      rw [BigComplex.display, if_neg (by omega), if_pos hre,
        if_neg (by omega), if_pos him]
    · intro hre him h1 hm1
      rw [BigComplex.display, if_neg him, if_pos hre, if_neg h1, if_neg hm1]
    · intro hre him
      rw [BigComplex.display, if_neg him, if_neg hre]
  refine ⟨hmain, ?_, ?_, ?_, ?_⟩
  · have h := (hmain ⟨5, -3⟩).2.2.2.2.2 (by norm_num) (by norm_num)
    rw [h]
    simp only [if_neg (by norm_num : ¬ (0 : Int) < (⟨5, -3⟩ : BigComplex).imag)]
    rw [intStr_five, intStr_neg_three]
    rfl
  · have h := (hmain ⟨5, -3⟩).2.2.2.2.2 (by norm_num) (by norm_num)
    rw [h]
    simp only [if_neg (by norm_num : ¬ (0 : Int) < (⟨5, -3⟩ : BigComplex).imag)]
    rw [intStr_five, intStr_neg_three]
    decide
  · have h := (hmain ⟨3, -4⟩).2.2.2.2.2 (by norm_num) (by norm_num)
    rw [h]
    simp only [if_neg (by norm_num : ¬ (0 : Int) < (⟨3, -4⟩ : BigComplex).imag)]
    rw [intStr_three, intStr_neg_four]
    rfl
  · exact (hmain ⟨0, 0⟩).1 rfl

/-- Witness for C7 at the zero value and at `0 + 1i`. -/
theorem display_spec_witness :
    BigComplex.display ⟨0, 0⟩ = "0" ∧ BigComplex.display ⟨0, 1⟩ = "i" :=
  ⟨(display_spec.1 ⟨0, 0⟩).1 rfl, (display_spec.1 ⟨0, 1⟩).2.2.1 rfl rfl⟩

end BigNum
